import Mathlib

/-!
Shallow embedding of the codepr/webcrawler Go repository, together with
theorems settling the specification claims about it.

Conventions of the embedding:
* `time.Duration` values are modelled as `Nat` counts of nanoseconds (every
  duration handled by this program is non-negative).  Go's
  `Duration.Milliseconds()` is truncating integer division by 10^6, which on
  non-negative values coincides with `Nat` division.
* Go's `float64` arithmetic in `randDelay`, `CrawlDelay` and
  `UpdateLastDelay` is applied to integral millisecond counts (exact in
  `float64` for every realistic duration, i.e. below 2^52) or to dyadic
  second values; the embedding uses exact integer / rational arithmetic with
  explicit floors where Go's `int64(...)` conversion truncates.
* Go maps are modelled as association lists; `map[string]bool` sets are
  modelled as lists of keys (the Go code only ever stores `true`).
* External capabilities (the HTTP fetcher, the robots.txt parser backend,
  goquery's HTML resolution) enter as explicit parameters describing their
  outcome, mirroring the interfaces the Go code consumes.
-/

set_option linter.unusedVariables false

namespace Webcrawler

/-- Model of Go's `net/url.URL` restricted to the fields this program reads:
`Scheme`, the port-less host (`Hostname()`), `Path` and `RawQuery`. -/
structure UrlT where
  scheme : String
  host : String
  path : String
  query : String
deriving DecidableEq, Repr

/-- Serialization `(*url.URL).String()` restricted to the modelled fields;
only used as an opaque cache key by the code under study. -/
def urlString (u : UrlT) : String :=
  u.scheme ++ "://" ++ u.host ++ u.path ++
    (if u.query = "" then "" else "?" ++ u.query)

/-- Go's `(*url.URL).RequestURI()`: the escaped path (an empty path renders
as "/") followed by `?query` when a query is present.  This is the string
`Allowed` hands to `robotsGroup.Test`. -/
def requestURI (u : UrlT) : String :=
  (if u.path = "" then "/" else u.path) ++
    (if u.query = "" then "" else "?" ++ u.query)

/-! ### memoryCache (`memorycache.go`, `src/unnamed/part_000`)

`memoryCache` is `map[string]map[string]bool` under a RW-mutex.  The inner
map only ever receives `true`, so it is modelled as the list of its keys;
the outer map as an association list from namespace to inner set. -/

/-- Inner-set insertion: Go's `m[key] = true` on a `map[string]bool`. -/
def innerSet (inner : List String) (key : String) : List String :=
  if key ∈ inner then inner else inner ++ [key]

/-- The in-memory visited cache: namespace ↦ set of keys. -/
structure memoryCache where
  cache : List (String × List String)
deriving DecidableEq, Repr

/-- `newMemoryCache` inits the outer map empty. -/
def newMemoryCache : memoryCache := ⟨[]⟩

/-- Outer-map update used by `Set`: lazily create the inner set for a new
namespace, otherwise insert into the existing inner set. -/
def setNs (c : List (String × List String)) (ns key : String) :
    List (String × List String) :=
  match c with
  | [] => [(ns, [key])]
  | (n, s) :: rest =>
      if n = ns then (n, innerSet s key) :: rest else (n, s) :: setNs rest ns key

/-- `memoryCache.Set(namespace, key)`: add an entry, lazily initializing the
inner set for a fresh namespace. -/
def memoryCache.Set (c : memoryCache) (ns key : String) : memoryCache :=
  ⟨setNs c.cache ns key⟩

/-- Outer-map lookup. -/
def getNs (c : List (String × List String)) (ns : String) :
    Option (List String) :=
  match c with
  | [] => none
  | (n, s) :: rest => if n = ns then some s else getNs rest ns

/-- `memoryCache.Contains(namespace, key)`: true iff the namespace exists in
the outer map and the key is in its inner set. -/
def memoryCache.Contains (c : memoryCache) (ns key : String) : Bool :=
  match getNs c.cache ns with
  | none => false
  | some inner => key ∈ inner

/-! ### CrawlingRules (`src/crawler/crawlingrules.go`) -/

/-- A `robotstxt.Group` as consumed by the code: a path test and a
crawl-delay duration (nanoseconds). -/
structure RobotsGroup where
  test : String → Bool
  CrawlDelay : Nat

/-- State of a `CrawlingRules` value.  The RW-mutex only serializes access
and is not part of the sequential state. -/
structure CrawlingRules where
  baseDomain : UrlT
  cache : memoryCache
  robotsGroup : Option RobotsGroup
  fixedDelay : Nat
  lastDelay : Nat

/-- `NewCrawlingRules`: robotsGroup starts unset, lastDelay zero. -/
def NewCrawlingRules (baseDomain : UrlT) (cache : memoryCache)
    (fixedDelay : Nat) : CrawlingRules :=
  { baseDomain := baseDomain, cache := cache, robotsGroup := none,
    fixedDelay := fixedDelay, lastDelay := 0 }

/-- Go's `Duration.Milliseconds()` on a non-negative duration. -/
def msOf (d : Nat) : Nat := d / 1000000

/-- `subdomain(domain, link)`: hostname equality, or an empty hostname. -/
def subdomain (domain link : UrlT) : Bool :=
  link.host == domain.host || link.host == ""

/-- `Allowed(url)` as a state transformer.  Mirrors the source: an early
`false` when the cache already contains the URL, otherwise a deferred
`cache.Set` runs whatever the robots/domain outcome is. -/
def CrawlingRules.Allowed (r : CrawlingRules) (u : UrlT) :
    Bool × CrawlingRules :=
  if r.cache.Contains (urlString r.baseDomain) (urlString u) then (false, r)
  else
    let r' := { r with
      cache := r.cache.Set (urlString r.baseDomain) (urlString u) }
    match r.robotsGroup with
    | some g => (g.test (requestURI u) && subdomain r.baseDomain u, r')
    | none => (subdomain r.baseDomain u, r')

/-- `randDelay(value)` with the pseudo-random draw made explicit:
`draw` stands for `rand.Int63n(int64(max-min))`, which ranges over
`[0, value)` because `max-min = 1.5*value - 0.5*value = value` exactly in
`float64`.  `int64(max)` truncates `1.5*value` to `⌊3*value/2⌋`.  Faithful
for `value < 2^52`. -/
def randDelay (value : Nat) (draw : Nat) : Nat :=
  if value = 0 then 0 else draw + 3 * value / 2

/-- `CrawlDelay()` with the pseudo-random draw explicit.  All arithmetic is
performed on millisecond counts (`math.Max` over `float64` images of int64
millisecond values is exact) and re-scaled to nanoseconds by the trailing
`* time.Millisecond` of each step. -/
def CrawlingRules.CrawlDelay (r : CrawlingRules) (draw : Nat) : Nat :=
  let delay : Nat := match r.robotsGroup with
    | some g => g.CrawlDelay
    | none => 0
  let randomDelay := randDelay (msOf r.fixedDelay) draw * 1000000
  let baseDelay := max (msOf randomDelay) (msOf delay) * 1000000
  max (msOf r.lastDelay) (msOf baseDelay) * 1000000

/-- `UpdateLastDelay(lastResponseTime)`: `Seconds()` divides nanoseconds by
10^9 (exact here in ℚ; `float64` is exact on the dyadic inputs at issue),
`math.Pow(·, 2)` squares, and the `time.Duration(...)` conversion truncates
the float to an integer second count before `* time.Second` re-scales. -/
def CrawlingRules.UpdateLastDelay (r : CrawlingRules)
    (lastResponseTime : Nat) : CrawlingRules :=
  { r with lastDelay :=
      (Int.toNat ⌊((lastResponseTime : ℚ) / 1000000000) ^ 2⌋) * 1000000000 }

/-- A parsed `robotstxt.RobotsData`: the only operation the code uses is
`FindGroup(userAgent)`. -/
structure RobotsData where
  findGroup : String → Option RobotsGroup

/-- Outcome of fetching and parsing `<domain>/robots.txt`:
`transportError` models `f.Fetch` returning a non-nil error (with nil
response); `response status parsed` models a response with the given
status code, `parsed = none` standing for a `robotstxt.FromResponse`
parse error. -/
inductive RobotsFetchOutcome where
  | transportError
  | response (status : Nat) (parsed : Option RobotsData)

/-- `GetRobotsTxtGroup(f, userAgent, domain)` as a state transformer over the
fetch outcome.  Mirrors the source: transport error or 404 return false
before any assignment; a parse error likewise; otherwise `robotsGroup` is
assigned `FindGroup(userAgent)` and the result is its non-nilness. -/
def CrawlingRules.GetRobotsTxtGroup (r : CrawlingRules)
    (outcome : RobotsFetchOutcome) (userAgent : String) :
    Bool × CrawlingRules :=
  match outcome with
  | .transportError => (false, r)
  | .response status parsed =>
      if status = 404 then (false, r)
      else
        match parsed with
        | none => (false, r)
        | some body =>
            let g := body.findGroup userAgent
            (g.isSome, { r with robotsGroup := g })

/-! ### Operation traces over a `CrawlingRules` value

The politeness operations as a single step function, used to speak about
states reachable by later calls. -/

/-- One call to a politeness operation (result values discarded). -/
inductive RulesOp where
  | allowedOp (u : UrlT)
  | crawlDelayOp (draw : Nat)
  | updateLastDelayOp (t : Nat)
  | getRobotsOp (outcome : RobotsFetchOutcome) (userAgent : String)

/-- State after one politeness operation.  `CrawlDelay`'s body only reads
fields under `RLock` and performs no assignment, so its step is the
identity on the state. -/
def applyOp (r : CrawlingRules) : RulesOp → CrawlingRules
  | .allowedOp u => (r.Allowed u).2
  | .crawlDelayOp _ => r
  | .updateLastDelayOp t => r.UpdateLastDelay t
  | .getRobotsOp outcome ua => (r.GetRobotsTxtGroup outcome ua).2

/-- State after a sequence of politeness operations. -/
def applyOps (r : CrawlingRules) : List RulesOp → CrawlingRules
  | [] => r
  | op :: rest => applyOps (applyOp r op) rest

/-- State of the visited cache after a sequence of `Set` calls. -/
def applyCacheOps (c : memoryCache) : List (String × String) → memoryCache
  | [] => c
  | (ns, k) :: rest => applyCacheOps (c.Set ns k) rest

/-! ### LinkExtractor (`src/crawler/fetcher/parser.go`)

`goquery` documents are modelled as the list, in document order, of their
elements; an element carries its tag name and its `href` / `rel`
attributes (`none` when absent — goquery's `Attr` then yields `""` with
`exists = false`).  URL resolution (`resolveRelativeURL`, built on
`net/url`) enters as a parameter `resolve : String → String → Option String`
returning the resolved absolute URL's string form, mirroring the separate
Go helper the extractor calls. -/

/-- An HTML element as seen through goquery's `Attr`. -/
structure Element where
  tag : String
  href : Option String
  rel : Option String
deriving DecidableEq, Repr

/-- Go's `filepath.Ext` scan, over the reversed character list with the
already-scanned suffix as accumulator. -/
def extGo (acc : List Char) : List Char → String
  | [] => ""
  | c :: rest =>
      if c = '/' then ""
      else if c = '.' then String.mk ('.' :: acc)
      else extGo (c :: acc) rest

/-- `filepath.Ext(path)`: the suffix from the final dot of the last
path element; empty when there is no dot. -/
def filepathExt (p : String) : String :=
  extGo [] p.data.reverse

/-- The `FilterFunction` predicate of `extractLinks`: an element qualifies
when it has an `href` whose extension is not excluded, or a
`rel="canonical"` whose (always empty) extension is not excluded. -/
def elementQualifies (excludedExts : List String) (e : Element) : Bool :=
  let anchorOk := e.href.isSome &&
    !(excludedExts.contains (filepathExt (e.href.getD "")))
  let linkOk := e.rel.isSome && (e.rel.getD "" == "canonical") &&
    !(excludedExts.contains (filepathExt (e.rel.getD "")))
  anchorOk || linkOk

/-- The extractor's `sync.Map` of already-emitted URLs, as an association
list (sequentially the stored value records whether emission completed). -/
def lookupSeen (seen : List (String × Bool)) (k : String) : Option Bool :=
  match seen with
  | [] => none
  | (k', v) :: rest => if k' = k then some v else lookupSeen rest k

/-- `sync.Map.Store`: update the entry, inserting it when absent. -/
def storeSeen (seen : List (String × Bool)) (k : String) (v : Bool) :
    List (String × Bool) :=
  match seen with
  | [] => [(k, v)]
  | (k', v') :: rest =>
      if k' = k then (k', v) :: rest else (k', v') :: storeSeen rest k v

/-- `sync.Map.LoadOrStore`: return the existing value, or store and return
the given one. -/
def loadOrStore (seen : List (String × Bool)) (k : String) (v : Bool) :
    Bool × List (String × Bool) :=
  match lookupSeen seen k with
  | some cur => (cur, seen)
  | none => (v, seen ++ [(k, v)])

/-- The goquery-backed parser: its configured excluded extensions and its
instance-scoped seen map. -/
structure GoqueryParser where
  excludedExts : List String
  seen : List (String × Bool)
deriving DecidableEq, Repr

/-- `NewGoqueryParser`: empty exclusion set, fresh seen map. -/
def NewGoqueryParser : GoqueryParser := ⟨[], []⟩

/-- The body of `extractLinks`'s `Each` callback for one qualifying
element: resolve its `href`; on success, `LoadOrStore(link, false)` and, if
the loaded value is not true, append the link and `Store(link, true)`. -/
def extractStep (resolve : String → String → Option String) (baseURL : String)
    (acc : List String × List (String × Bool)) (e : Element) :
    List String × List (String × Bool) :=
  match resolve baseURL (e.href.getD "") with
  | none => acc
  | some link =>
      let ls := loadOrStore acc.2 link false
      if ls.1 then (acc.1, ls.2)
      else (acc.1 ++ [link], storeSeen ls.2 link true)

/-- `extractLinks(doc, baseURL)`: select `a` and `link` elements
(`Find("a,link")`), filter by `elementQualifies`, then run the emission
callback over the survivors in document order. -/
def GoqueryParser.extractLinks (p : GoqueryParser)
    (resolve : String → String → Option String) (baseURL : String)
    (doc : List Element) : List String × GoqueryParser :=
  let candidates := (doc.filter fun e => e.tag == "a" || e.tag == "link").filter
    (elementQualifies p.excludedExts)
  let out := candidates.foldl (extractStep resolve baseURL) ([], p.seen)
  (out.1, { p with seen := out.2 })

/-- `Parse(baseURL, reader)`: `doc = none` models a
`goquery.NewDocumentFromReader` error (nil links, error returned, seen map
untouched); otherwise `extractLinks` runs. -/
def GoqueryParser.Parse (p : GoqueryParser)
    (resolve : String → String → Option String) (baseURL : String)
    (doc : Option (List Element)) : Option (List String) × GoqueryParser :=
  match doc with
  | none => (none, p)
  | some els =>
      let out := p.extractLinks resolve baseURL els
      (some out.1, out.2)

/-- The link lists returned by a sequence of `Parse` calls on one parser
instance (an erroring call contributes the empty list). -/
def runParses (p : GoqueryParser)
    (resolve : String → String → Option String) :
    List (String × Option (List Element)) → List (List String) × GoqueryParser
  | [] => ([], p)
  | (base, doc) :: rest =>
      let out := p.Parse resolve base doc
      let next := runParses out.2 resolve rest
      ((out.1.getD []) :: next.1, next.2)

/-! ### Fetcher (`fetcher.go`, `src/unnamed/part_004`) -/

/-- Outcome of `f.Fetch(targetURL)`: a transport error (nil response), or a
response with a status code and a body. -/
inductive FetchOutcome where
  | fetchErr (msg : String)
  | ok (status : Nat) (body : String)

/-- `parseStartURL(u)`: the `scheme://host` portion of the URL. -/
def parseStartURL (u : UrlT) : String :=
  u.scheme ++ "://" ++ u.host

/-- `FetchLinks(targetURL)` over an explicit fetch outcome and an optional
parser (`parse base body` yields links or an HTML parse error).  The Go
pair `([]*url.URL, error)` — where a non-nil error always accompanies nil
links — is modelled as an `Except`. -/
def FetchLinks (parser : Option (String → String → Except String (List String)))
    (fetchRes : FetchOutcome) (targetURL : UrlT) :
    Except String (List String) :=
  match parser with
  | none => .error ("fetching links from " ++ urlString targetURL ++
      " failed: no parser set")
  | some parse =>
      let baseDomain := parseStartURL targetURL
      match fetchRes with
      | .fetchErr e => .error ("fetching links from " ++ urlString targetURL ++
          " failed: " ++ e)
      | .ok status body =>
          if 400 ≤ status then
            .error ("fetching links from " ++ urlString targetURL ++
              " failed: " ++ toString status)
          else
            match parse baseDomain body with
            | .error e => .error ("fetching links from " ++
                urlString targetURL ++ " failed: " ++ e)
            | .ok links => .ok links

/-! ### Orchestrator seed loop (`src/crawler/crawler.go`, `Crawl`) -/

/-- Observable outcome of `Crawl`'s seed loop: either every seed was
processed and the function proceeds to `wg.Wait()` and returns
(`completed`), or `url.Parse` failed on some seed and `c.logger.Fatal`
terminated the process via `os.Exit(1)` (`fatalExit`).  Either way the
engines spawned so far are listed. -/
inductive CrawlOutcome where
  | completed (started : List UrlT)
  | fatalExit (started : List UrlT)
deriving DecidableEq, Repr

/-- The `for _, href := range URLs` loop of `Crawl`, with `url.Parse`
supplied as a parameter: on parse error, `logger.Fatal` exits the process;
otherwise an empty scheme defaults to `https` and an engine goroutine is
spawned for the seed. -/
def crawlSeedLoop (parse : String → Option UrlT) :
    List String → List UrlT → CrawlOutcome
  | [], started => .completed started
  | href :: rest, started =>
      match parse href with
      | none => .fatalExit started
      | some u =>
          let u' := if u.scheme = "" then { u with scheme := "https" } else u
          crawlSeedLoop parse rest (started ++ [u'])

/-- `Crawl(URLs...)`: run the seed loop from an empty set of engines. -/
def Crawl (parse : String → Option UrlT) (URLs : List String) : CrawlOutcome :=
  crawlSeedLoop parse URLs []

/-! ### Helper lemmas about the embedded definitions -/

theorem msOf_scale (a : Nat) : msOf (a * 1000000) = a := by
  unfold msOf
  omega

theorem mem_innerSet_self (s : List String) (k : String) : k ∈ innerSet s k := by
  unfold innerSet
  split <;> simp [*]

theorem mem_innerSet_of_mem (s : List String) (k x : String) (hx : x ∈ s) :
    x ∈ innerSet s k := by
  unfold innerSet
  split <;> simp [hx]

theorem innerSet_idem (s : List String) (k : String) :
    innerSet (innerSet s k) k = innerSet s k := by
  unfold innerSet
  split
  · simp [*]
  · simp

theorem getNs_setNs (c : List (String × List String)) (ns' k' ns : String) :
    getNs (setNs c ns' k') ns =
      if ns = ns' then some (innerSet ((getNs c ns').getD []) k')
      else getNs c ns := by
  induction c with
  | nil =>
      by_cases h : ns = ns'
      · subst h
        simp [setNs, getNs, innerSet]
      · have h' : ¬ ns' = ns := fun hh => h hh.symm
        simp [setNs, getNs, h, h']
  | cons hd tl ih =>
      obtain ⟨n, s⟩ := hd
      by_cases h1 : n = ns'
      · subst h1
        by_cases h2 : ns = n
        · subst h2
          simp [setNs, getNs]
        · have h2' : ¬ n = ns := fun hh => h2 hh.symm
          simp [setNs, getNs, h2, h2']
      · by_cases h2 : n = ns
        · subst h2
          simp [setNs, getNs, h1]
        · simp [setNs, getNs, h1, h2, ih]

theorem Contains_Set_self (c : memoryCache) (ns k : String) :
    (c.Set ns k).Contains ns k = true := by
  unfold memoryCache.Set memoryCache.Contains
  rw [getNs_setNs]
  simp [mem_innerSet_self]

theorem Contains_Set_mono (c : memoryCache) (ns k ns' k' : String)
    (h : c.Contains ns k = true) : (c.Set ns' k').Contains ns k = true := by
  unfold memoryCache.Set memoryCache.Contains
  rw [getNs_setNs]
  unfold memoryCache.Contains at h
  by_cases hns : ns = ns'
  · subst hns
    simp only [if_pos rfl]
    cases hg : getNs c.cache ns with
    | none => rw [hg] at h; simp at h
    | some inner =>
        rw [hg] at h
        simp at h ⊢
        exact mem_innerSet_of_mem _ _ _ h
  · simp only [if_neg hns]
    exact h

theorem setNs_idem (c : List (String × List String)) (ns k : String) :
    setNs (setNs c ns k) ns k = setNs c ns k := by
  induction c with
  | nil => simp [setNs, innerSet]
  | cons hd tl ih =>
      obtain ⟨n, s⟩ := hd
      by_cases h : n = ns
      · subst h
        simp [setNs, innerSet_idem]
      · simp [setNs, h, ih]

theorem getNs_applyCacheOps_none (ops : List (String × String))
    (c : memoryCache) (ns : String) (hc : getNs c.cache ns = none)
    (hns : ns ∉ ops.map Prod.fst) :
    getNs (applyCacheOps c ops).cache ns = none := by
  induction ops generalizing c with
  | nil => exact hc
  | cons op rest ih =>
      obtain ⟨ns', k'⟩ := op
      simp only [List.map_cons, List.mem_cons, not_or] at hns
      refine ih _ ?_ hns.2
      show getNs (setNs c.cache ns' k') ns = none
      rw [getNs_setNs, if_neg hns.1]
      exact hc

theorem msOf_zero : msOf 0 = 0 := rfl

/-! ### Concrete states used by counterexamples and witnesses -/

/-- A concrete in-domain base URL. -/
def urlEx : UrlT := ⟨"http", "example.com", "", ""⟩

/-- A concrete politeness state: fresh cache, no robots group, 500 ms fixed
delay (the configuration default). -/
def rulesEx : CrawlingRules := NewCrawlingRules urlEx newMemoryCache 500000000

/-- A parsed robots.txt with no group for any user agent. -/
def robotsBody0 : RobotsData := ⟨fun _ => none⟩

/-- A parser that returns its base URL as the single link. -/
def parseOkEx : String → String → Except String (List String) :=
  fun base _ => .ok [base]

/-! ### Claims -/

/-- C1: the claim says the random component of `CrawlDelay` is uniform in
`[0.5*fixedDelay, 1.5*fixedDelay]`.  The code computes
`rand.Int63n(int64(max-min)) + int64(max)`, i.e. `draw + ⌊1.5*value⌋` with
`draw < value`, which ranges over `[1.5*value, 2.5*value)` — contradicting
the function's own doc comment ("Return a random value between 1.5*value
and 0.5*value").  At `value = 1000` ms and draw `500` the result is `2000`
ms, outside the claimed range.  The `fixedDelay == 0` half of the claim
does hold: `randDelay` returns 0 and `CrawlDelay` reduces to
`max(robots crawl-delay, lastDelay)` (at millisecond granularity). -/
theorem C1_randDelay_range_code_bug :
    randDelay 1000 500 = 2000 ∧
    ¬ (500 ≤ randDelay 1000 500 ∧ randDelay 1000 500 ≤ 1500) ∧
    (∀ draw, randDelay 0 draw = 0) ∧
    (∀ (base : UrlT) (c : memoryCache) (g : Option RobotsGroup)
       (last draw : Nat),
      CrawlingRules.CrawlDelay ⟨base, c, g, 0, last⟩ draw =
        max (msOf last)
          (msOf (match g with | some gr => gr.CrawlDelay | none => 0))
          * 1000000) := by
  refine ⟨rfl, by decide, fun draw => by simp [randDelay], ?_⟩
  intro base c g last draw
  cases g with
  | none => simp [CrawlingRules.CrawlDelay, randDelay, msOf_zero, msOf_scale]
  | some gr => simp [CrawlingRules.CrawlDelay, randDelay, msOf_zero, msOf_scale]

/-- C5 counterexample: the claim says `UpdateLastDelay(t)` stores exactly
`(t in seconds)²`, e.g. 1.5 s ↦ 2.25 s.  The code converts the squared
float to `time.Duration` *before* scaling by `time.Second`, truncating to a
whole second count: 1.5 s ↦ 2 s, not 2.25 s. -/
theorem C5_counterexample :
    (rulesEx.UpdateLastDelay 1500000000).lastDelay = 2000000000 ∧
    (rulesEx.UpdateLastDelay 1500000000).lastDelay ≠ 2250000000 := by
  have h : ((1500000000 : ℚ) / 1000000000) ^ 2 = 9 / 4 := by norm_num
  have h2 : ⌊(9 / 4 : ℚ)⌋ = 2 := by norm_num
  constructor
  · simp [CrawlingRules.UpdateLastDelay, h, h2]
  · simp [CrawlingRules.UpdateLastDelay, h, h2]

/-- C5 amended: `UpdateLastDelay(t)` sets `lastDelay` to the square of the
response time in seconds truncated down to a whole number of seconds,
`⌊t_ns² / 10^18⌋` seconds (so a 1.5 s response yields 2 s, not 2.25 s). -/
theorem C5_update_last_delay_truncates (r : CrawlingRules) (t : Nat) :
    (r.UpdateLastDelay t).lastDelay =
      (Int.toNat ⌊((t : ℚ) ^ 2) / 1000000000000000000⌋) * 1000000000 := by
  have h : (((t : ℚ)) / 1000000000) ^ 2 = ((t : ℚ) ^ 2) / 1000000000000000000 := by
    rw [div_pow]
    norm_num
  simp [CrawlingRules.UpdateLastDelay, h]

/-- C8: `Set(ns,k)` makes `Contains(ns,k)` true, repeating `Set` is
idempotent on the state, and `Contains` on a namespace never touched by any
`Set` returns false. -/
theorem C8_visited_set_contract :
    (∀ (c : memoryCache) (ns k : String), (c.Set ns k).Contains ns k = true) ∧
    (∀ (c : memoryCache) (ns k : String), (c.Set ns k).Set ns k = c.Set ns k) ∧
    (∀ (ops : List (String × String)) (ns k : String),
      ns ∉ ops.map Prod.fst →
      (applyCacheOps newMemoryCache ops).Contains ns k = false) := by
  refine ⟨Contains_Set_self, ?_, ?_⟩
  · intro c ns k
    simp [memoryCache.Set, setNs_idem]
  · intro ops ns k hns
    have h := getNs_applyCacheOps_none ops newMemoryCache ns rfl hns
    unfold memoryCache.Contains
    rw [h]

/-- C8 witness: one `Set` on namespace "a"; `Contains` of the untouched
namespace "b" is false. -/
theorem C8_witness :
    ("b" ∉ [("a", "x")].map Prod.fst) ∧
    (applyCacheOps newMemoryCache [("a", "x")]).Contains "b" "y" = false :=
  ⟨by decide, C8_visited_set_contract.2.2 [("a", "x")] "b" "y" (by decide)⟩

/-- C6: `GetRobotsTxtGroup` returns false and leaves the state (hence
`robotsGroup`) unchanged on a transport error, on HTTP 404, and on a
robots.txt parse error; on a fetched-and-parsed robots.txt it stores
`FindGroup(userAgent)` and returns true iff that group is non-nil. -/
theorem C6_getRobots_contract :
    (∀ (r : CrawlingRules) (ua : String),
      r.GetRobotsTxtGroup .transportError ua = (false, r)) ∧
    (∀ (r : CrawlingRules) (ua : String) (parsed : Option RobotsData),
      r.GetRobotsTxtGroup (.response 404 parsed) ua = (false, r)) ∧
    (∀ (r : CrawlingRules) (ua : String) (status : Nat), status ≠ 404 →
      r.GetRobotsTxtGroup (.response status none) ua = (false, r)) ∧
    (∀ (r : CrawlingRules) (ua : String) (status : Nat) (body : RobotsData),
      status ≠ 404 →
      r.GetRobotsTxtGroup (.response status (some body)) ua =
        ((body.findGroup ua).isSome,
         { r with robotsGroup := body.findGroup ua })) := by
  refine ⟨fun r ua => rfl, ?_, ?_, ?_⟩
  · intro r ua parsed
    simp [CrawlingRules.GetRobotsTxtGroup]
  · intro r ua status h
    simp [CrawlingRules.GetRobotsTxtGroup, h]
  · intro r ua status body h
    simp [CrawlingRules.GetRobotsTxtGroup, h]

/-- C6 witness: a 200 response whose parsed robots.txt has no matching
group stores `none` and returns false. -/
theorem C6_witness :
    ((200 : Nat) ≠ 404) ∧
    rulesEx.GetRobotsTxtGroup (.response 200 (some robotsBody0)) "agent" =
      ((robotsBody0.findGroup "agent").isSome,
       { rulesEx with robotsGroup := robotsBody0.findGroup "agent" }) :=
  ⟨by decide,
   C6_getRobots_contract.2.2.2 rulesEx "agent" 200 robotsBody0 (by decide)⟩

/-- C9: `FetchLinks` errors (with nil links, modelled by `Except.error`)
whenever no parser is configured or the response status is ≥ 400; otherwise
it hands the body to the parser with the `scheme://host` portion of the
URL as base and returns the parsed links. -/
theorem C9_fetchLinks_contract :
    (∀ (fetchRes : FetchOutcome) (u : UrlT),
      ∃ e, FetchLinks none fetchRes u = .error e) ∧
    (∀ (parse : String → String → Except String (List String)) (u : UrlT)
       (status : Nat) (body : String), 400 ≤ status →
      ∃ e, FetchLinks (some parse) (.ok status body) u = .error e) ∧
    (∀ (parse : String → String → Except String (List String)) (u : UrlT)
       (status : Nat) (body : String) (links : List String), status < 400 →
      parse (parseStartURL u) body = .ok links →
      FetchLinks (some parse) (.ok status body) u = .ok links) := by
  refine ⟨fun fetchRes u => ⟨_, rfl⟩, ?_, ?_⟩
  · intro parse u status body h
    exact ⟨"fetching links from " ++ urlString u ++ " failed: " ++
      toString status, by simp [FetchLinks, h]⟩
  · intro parse u status body links h hp
    simp [FetchLinks, Nat.not_le.mpr h, hp]

/-- C9 witness: a 404 errors; a 200 with a successful parse returns the
parser's links, the base handed over being `http://example.com`. -/
theorem C9_witness :
    ((400 : Nat) ≤ 404) ∧ ((200 : Nat) < 400) ∧
    parseOkEx (parseStartURL urlEx) "" = .ok ["http://example.com"] ∧
    (∃ e, FetchLinks (some parseOkEx) (.ok 404 "") urlEx = .error e) ∧
    FetchLinks (some parseOkEx) (.ok 200 "") urlEx = .ok ["http://example.com"] :=
  ⟨by decide, by decide, rfl,
   C9_fetchLinks_contract.2.1 parseOkEx urlEx 404 "" (by decide),
   C9_fetchLinks_contract.2.2 parseOkEx urlEx 200 "" ["http://example.com"]
     (by decide) rfl⟩

/-! ### State-preservation lemmas for operation traces -/

theorem allowed_visited_false (r : CrawlingRules) (u : UrlT)
    (hc : r.cache.Contains (urlString r.baseDomain) (urlString u) = true) :
    (r.Allowed u).1 = false := by
  unfold CrawlingRules.Allowed
  rw [if_pos hc]

theorem baseDomain_Allowed (r : CrawlingRules) (u : UrlT) :
    ((r.Allowed u).2).baseDomain = r.baseDomain := by
  unfold CrawlingRules.Allowed
  split
  · rfl
  · cases r.robotsGroup <;> rfl

theorem contains_Allowed_mono (r : CrawlingRules) (u : UrlT) (ns k : String)
    (h : r.cache.Contains ns k = true) :
    ((r.Allowed u).2).cache.Contains ns k = true := by
  unfold CrawlingRules.Allowed
  split
  · exact h
  · cases r.robotsGroup <;> exact Contains_Set_mono _ _ _ _ _ h

theorem baseDomain_getRobots (r : CrawlingRules) (o : RobotsFetchOutcome)
    (ua : String) : ((r.GetRobotsTxtGroup o ua).2).baseDomain = r.baseDomain := by
  unfold CrawlingRules.GetRobotsTxtGroup
  cases o with
  | transportError => rfl
  | response status parsed =>
      by_cases h : status = 404
      · simp [h]
      · cases parsed <;> simp [h]

theorem cache_getRobots (r : CrawlingRules) (o : RobotsFetchOutcome)
    (ua : String) : ((r.GetRobotsTxtGroup o ua).2).cache = r.cache := by
  unfold CrawlingRules.GetRobotsTxtGroup
  cases o with
  | transportError => rfl
  | response status parsed =>
      by_cases h : status = 404
      · simp [h]
      · cases parsed <;> simp [h]

theorem baseDomain_applyOp (r : CrawlingRules) (op : RulesOp) :
    (applyOp r op).baseDomain = r.baseDomain := by
  cases op with
  | allowedOp u => exact baseDomain_Allowed r u
  | crawlDelayOp draw => rfl
  | updateLastDelayOp t => rfl
  | getRobotsOp o ua => exact baseDomain_getRobots r o ua

theorem contains_applyOp_mono (r : CrawlingRules) (op : RulesOp) (ns k : String)
    (h : r.cache.Contains ns k = true) :
    (applyOp r op).cache.Contains ns k = true := by
  cases op with
  | allowedOp u => exact contains_Allowed_mono r u ns k h
  | crawlDelayOp draw => exact h
  | updateLastDelayOp t => exact h
  | getRobotsOp o ua => rw [show (applyOp r (.getRobotsOp o ua)).cache = r.cache from cache_getRobots r o ua]; exact h

theorem baseDomain_applyOps (r : CrawlingRules) (ops : List RulesOp) :
    (applyOps r ops).baseDomain = r.baseDomain := by
  induction ops generalizing r with
  | nil => rfl
  | cons op rest ih => rw [applyOps, ih, baseDomain_applyOp]

theorem contains_applyOps_mono (r : CrawlingRules) (ops : List RulesOp)
    (ns k : String) (h : r.cache.Contains ns k = true) :
    (applyOps r ops).cache.Contains ns k = true := by
  induction ops generalizing r with
  | nil => exact h
  | cons op rest ih => exact ih _ (contains_applyOp_mono r op ns k h)

/-- C2: after any call to `Allowed(u)` — whatever it returned — `u` is in
the visited cache under the base-domain namespace, and any later call to
`Allowed(u)`, after any further sequence of politeness operations on the
same `CrawlingRules`, returns false. -/
theorem C2_allowed_consumes (r : CrawlingRules) (u : UrlT)
    (ops : List RulesOp) :
    ((r.Allowed u).2).cache.Contains (urlString r.baseDomain) (urlString u)
      = true ∧
    ((applyOps (r.Allowed u).2 ops).Allowed u).1 = false := by
  have h1 : ((r.Allowed u).2).cache.Contains (urlString r.baseDomain)
      (urlString u) = true := by
    by_cases h : r.cache.Contains (urlString r.baseDomain) (urlString u) = true
    · unfold CrawlingRules.Allowed
      rw [if_pos h]
      exact h
    · unfold CrawlingRules.Allowed
      rw [if_neg h]
      cases r.robotsGroup <;> exact Contains_Set_self _ _ _
  refine ⟨h1, ?_⟩
  refine allowed_visited_false _ u ?_
  rw [baseDomain_applyOps, baseDomain_Allowed]
  exact contains_applyOps_mono _ _ _ _ h1

/-- A politeness state whose robots group allows exactly the path "/foo". -/
def rulesC3 : CrawlingRules :=
  { baseDomain := urlEx, cache := newMemoryCache,
    robotsGroup := some ⟨fun s => s == "/foo", 0⟩,
    fixedDelay := 0, lastDelay := 0 }

/-- An in-domain URL with path "/foo" and a query string. -/
def urlC3 : UrlT := ⟨"http", "example.com", "/foo", "x=1"⟩

/-- An in-domain URL with path "/foo" and no query string. -/
def urlFoo : UrlT := ⟨"http", "example.com", "/foo", ""⟩

/-- C3 counterexample: with a robots group allowing exactly the path
"/foo", the unvisited in-domain URL `/foo?x=1` satisfies the claim's
right-hand side (its *path* passes the robots test, it is in-domain) yet
`Allowed` returns false, because the code tests `RequestURI()`
("/foo?x=1"), not the path. -/
theorem C3_counterexample :
    rulesC3.cache.Contains (urlString rulesC3.baseDomain) (urlString urlC3)
      = false ∧
    (match rulesC3.robotsGroup with
     | some g => g.test urlC3.path
     | none => true) = true ∧
    subdomain rulesC3.baseDomain urlC3 = true ∧
    (rulesC3.Allowed urlC3).1 = false :=
  ⟨rfl, rfl, rfl, rfl⟩

/-- C3 amended: for an unvisited `u`, `Allowed(u)` is true iff the robots
group is unset or its test of `u`'s *request URI* (path plus `?query`,
an empty path rendering as "/") passes, and `u` is in-domain (same
hostname as the base domain, or empty hostname); subdomains are not
in-domain. -/
theorem C3_allowed_fresh_url (r : CrawlingRules) (u : UrlT)
    (h : r.cache.Contains (urlString r.baseDomain) (urlString u) = false) :
    ((r.Allowed u).1 = true ↔
      ((match r.robotsGroup with
        | some g => g.test (requestURI u)
        | none => true) = true ∧ subdomain r.baseDomain u = true)) := by
  cases hg : r.robotsGroup with
  | some g => simp [CrawlingRules.Allowed, h, hg, Bool.and_eq_true]
  | none => simp [CrawlingRules.Allowed, h, hg]

/-- C3 witness: the same robots group and the query-free URL `/foo`; the
equivalence applies and both sides are true. -/
theorem C3_witness :
    rulesC3.cache.Contains (urlString rulesC3.baseDomain) (urlString urlFoo)
      = false ∧
    ((rulesC3.Allowed urlFoo).1 = true ↔
      ((match rulesC3.robotsGroup with
        | some g => g.test (requestURI urlFoo)
        | none => true) = true ∧ subdomain rulesC3.baseDomain urlFoo = true)) :=
  ⟨rfl, C3_allowed_fresh_url rulesC3 urlFoo rfl⟩

/-! ### C4: the orchestrator's seed loop -/

/-- The seeds of a list that `Crawl` turns into engines, with the `https`
scheme default applied. -/
def normalizeSeeds (parse : String → Option UrlT) (seeds : List String) :
    List UrlT :=
  seeds.filterMap fun s => (parse s).map fun u =>
    if u.scheme = "" then { u with scheme := "https" } else u

theorem crawlSeedLoop_append (parse : String → Option UrlT)
    (pre : List String) (l : List String) (acc : List UrlT)
    (good : ∀ s ∈ pre, (parse s).isSome = true) :
    crawlSeedLoop parse (pre ++ l) acc =
      crawlSeedLoop parse l (acc ++ normalizeSeeds parse pre) := by
  induction pre generalizing acc with
  | nil => simp [normalizeSeeds]
  | cons s pre ih =>
      have hs : (parse s).isSome = true := good s (by simp)
      obtain ⟨u, hu⟩ := Option.isSome_iff_exists.mp hs
      have good' : ∀ t ∈ pre, (parse t).isSome = true :=
        fun t ht => good t (by simp [ht])
      simp only [List.cons_append, crawlSeedLoop, hu]
      rw [List.append_eq, ih _ good']
      congr 1
      simp [normalizeSeeds, hu, List.append_assoc]

/-- A seed parser failing exactly on the string "bad". -/
def parseEx : String → Option UrlT :=
  fun s => if s = "bad" then none else some ⟨"", s, "", ""⟩

/-- C4 counterexample: with seeds `["a", "bad", "c"]` where "bad" fails to
parse, the loop exits the process fatally after starting only the engine
for "a"; the remaining seed "c" is never crawled and `Crawl` does not
return to its caller. -/
theorem C4_counterexample :
    parseEx "bad" = none ∧
    Crawl parseEx ["a", "bad", "c"] =
      .fatalExit [⟨"https", "a", "", ""⟩] ∧
    Crawl parseEx ["a", "bad", "c"] ≠
      .completed [⟨"https", "a", "", ""⟩, ⟨"https", "c", "", ""⟩] ∧
    (⟨"https", "c", "", ""⟩ : UrlT) ∉ [(⟨"https", "a", "", ""⟩ : UrlT)] := by
  decide

/-- C4 amended: a seed that fails to parse is fatal to the whole `Crawl`
call, not just to that seed: `logger.Fatal` logs and exits the process
(`os.Exit(1)`), so engines are spawned only for the seeds before the bad
one and the seeds after it are never crawled. -/
theorem C4_bad_seed_is_fatal (parse : String → Option UrlT)
    (pre : List String) (bad : String) (rest : List String)
    (good : ∀ s ∈ pre, (parse s).isSome = true) (hbad : parse bad = none) :
    Crawl parse (pre ++ bad :: rest) = .fatalExit (normalizeSeeds parse pre) := by
  unfold Crawl
  rw [crawlSeedLoop_append parse pre _ _ good]
  simp [crawlSeedLoop, hbad]

/-- C4 witness: seeds `["a"] ++ "bad" :: ["c"]` under `parseEx`. -/
theorem C4_witness :
    (∀ s ∈ ["a"], (parseEx s).isSome = true) ∧ parseEx "bad" = none ∧
    Crawl parseEx (["a"] ++ "bad" :: ["c"]) =
      .fatalExit (normalizeSeeds parseEx ["a"]) :=
  ⟨by decide, by decide,
   C4_bad_seed_is_fatal parseEx ["a"] "bad" ["c"] (by decide) (by decide)⟩

/-- C10: the `CrawlDelay` step leaves every field of the state unchanged
(the source only reads under `RLock`), while each of `Allowed`,
`UpdateLastDelay` and `GetRobotsTxtGroup` does mutate state at some
input. -/
theorem C10_crawlDelay_readonly :
    (∀ (r : CrawlingRules) (draw : Nat),
      (applyOp r (.crawlDelayOp draw)).baseDomain = r.baseDomain ∧
      (applyOp r (.crawlDelayOp draw)).cache = r.cache ∧
      (applyOp r (.crawlDelayOp draw)).robotsGroup = r.robotsGroup ∧
      (applyOp r (.crawlDelayOp draw)).fixedDelay = r.fixedDelay ∧
      (applyOp r (.crawlDelayOp draw)).lastDelay = r.lastDelay) ∧
    (∃ (r : CrawlingRules) (u : UrlT),
      (applyOp r (.allowedOp u)).cache ≠ r.cache) ∧
    (∃ (r : CrawlingRules) (t : Nat),
      (applyOp r (.updateLastDelayOp t)).lastDelay ≠ r.lastDelay) ∧
    (∃ (r : CrawlingRules) (o : RobotsFetchOutcome) (ua : String),
      (applyOp r (.getRobotsOp o ua)).robotsGroup.isSome
        ≠ r.robotsGroup.isSome) := by
  refine ⟨fun r draw => ⟨rfl, rfl, rfl, rfl, rfl⟩, ?_, ?_, ?_⟩
  · exact ⟨rulesEx, urlEx, by decide⟩
  · refine ⟨rulesEx, 2000000000, ?_⟩
    show (Int.toNat ⌊((2000000000 : ℚ) / 1000000000) ^ 2⌋) * 1000000000
      ≠ rulesEx.lastDelay
    have h : ((2000000000 : ℚ) / 1000000000) ^ 2 = 4 := by norm_num
    rw [h]
    norm_num [rulesEx, NewCrawlingRules]
  · refine ⟨rulesEx,
      .response 200 (some ⟨fun _ => some ⟨fun _ => true, 0⟩⟩), "ua", ?_⟩
    simp [applyOp, CrawlingRules.GetRobotsTxtGroup, rulesEx, NewCrawlingRules]

/-! ### Lemmas about the extractor's seen map -/

theorem lookupSeen_mem (seen : List (String × Bool)) (k : String) (v : Bool)
    (h : lookupSeen seen k = some v) : (k, v) ∈ seen := by
  induction seen with
  | nil => simp [lookupSeen] at h
  | cons hd tl ih =>
      obtain ⟨k', v'⟩ := hd
      by_cases hk : k' = k
      · subst hk
        rw [lookupSeen, if_pos rfl] at h
        simp at h
        simp [h]
      · rw [lookupSeen, if_neg hk] at h
        simp [ih h]

theorem lookupSeen_append_none (s₀ : List (String × Bool)) (k : String)
    (v : Bool) (x : String) :
    (lookupSeen (s₀ ++ [(k, v)]) x = none) ↔
      (lookupSeen s₀ x = none ∧ ¬ k = x) := by
  induction s₀ with
  | nil =>
      by_cases h : k = x <;> simp [lookupSeen, h]
  | cons hd tl ih =>
      obtain ⟨k', v'⟩ := hd
      by_cases h : k' = x <;> simp [lookupSeen, h, ih]

theorem lookupSeen_append_self (s₀ : List (String × Bool)) (k : String)
    (v : Bool) (h : lookupSeen s₀ k = none) :
    lookupSeen (s₀ ++ [(k, v)]) k = some v := by
  induction s₀ with
  | nil => simp [lookupSeen]
  | cons hd tl ih =>
      obtain ⟨k', v'⟩ := hd
      by_cases hk : k' = k
      · rw [lookupSeen, if_pos hk] at h
        simp at h
      · rw [lookupSeen, if_neg hk] at h
        rw [List.cons_append, lookupSeen, if_neg hk]
        exact ih h

theorem storeSeen_append_notin (s₀ : List (String × Bool)) (k : String)
    (b v : Bool) (h : lookupSeen s₀ k = none) :
    storeSeen (s₀ ++ [(k, b)]) k v = s₀ ++ [(k, v)] := by
  induction s₀ with
  | nil => simp [storeSeen]
  | cons hd tl ih =>
      obtain ⟨k', v'⟩ := hd
      by_cases hk : k' = k
      · rw [lookupSeen, if_pos hk] at h
        simp at h
      · rw [lookupSeen, if_neg hk] at h
        rw [List.cons_append, storeSeen, if_neg hk, ih h]
        simp

/-- The resolved URLs, in document order, of the qualifying elements of a
document — the candidate stream the extractor's dedup filters. -/
def resolvedCandidates (excl : List String)
    (resolve : String → String → Option String) (base : String)
    (els : List Element) : List String :=
  ((els.filter fun e => e.tag == "a" || e.tag == "link").filter
      (elementQualifies excl)).filterMap
    (fun e => resolve base (e.href.getD ""))

theorem extract_fold_spec (resolve : String → String → Option String)
    (base : String) (cs : List Element) (acc : List String)
    (seen₀ : List (String × Bool)) (hOK : ∀ q ∈ seen₀, q.2 = true) :
    ∃ out : List String,
      (cs.foldl (extractStep resolve base) (acc, seen₀)).1 = acc ++ out ∧
      out.Nodup ∧
      (∀ s ∈ out, lookupSeen seen₀ s = none) ∧
      (∀ s, lookupSeen (cs.foldl (extractStep resolve base) (acc, seen₀)).2 s
          = none ↔ (lookupSeen seen₀ s = none ∧ s ∉ out)) ∧
      (∀ q ∈ (cs.foldl (extractStep resolve base) (acc, seen₀)).2, q.2 = true) ∧
      List.Sublist out (cs.filterMap (fun e => resolve base (e.href.getD ""))) := by
  induction cs generalizing acc seen₀ with
  | nil =>
      exact ⟨[], by simp, List.nodup_nil, by simp, fun s => by simp, hOK,
        List.nil_sublist _⟩
  | cons e cs ih =>
      cases hr : resolve base (e.href.getD "") with
      | none =>
          have hstep : extractStep resolve base (acc, seen₀) e = (acc, seen₀) := by
            simp [extractStep, hr]
          rw [List.foldl_cons, hstep]
          obtain ⟨out, h1, h2, h3, h4, h5, h6⟩ := ih acc seen₀ hOK
          refine ⟨out, h1, h2, h3, h4, h5, ?_⟩
          simp only [List.filterMap_cons, hr]
          exact h6
      | some link =>
          cases hl : lookupSeen seen₀ link with
          | some cur =>
              have hcur : cur = true :=
                hOK (link, cur) (lookupSeen_mem _ _ _ hl)
              have hstep : extractStep resolve base (acc, seen₀) e
                  = (acc, seen₀) := by
                simp [extractStep, hr, loadOrStore, hl, hcur]
              rw [List.foldl_cons, hstep]
              obtain ⟨out, h1, h2, h3, h4, h5, h6⟩ := ih acc seen₀ hOK
              refine ⟨out, h1, h2, h3, h4, h5, ?_⟩
              simp only [List.filterMap_cons, hr]
              exact h6.cons link
          | none =>
              have hstep : extractStep resolve base (acc, seen₀) e =
                  (acc ++ [link], seen₀ ++ [(link, true)]) := by
                simp [extractStep, hr, loadOrStore, hl,
                  storeSeen_append_notin seen₀ link false true hl]
              have hOK1 : ∀ q ∈ seen₀ ++ [(link, true)], q.2 = true := by
                intro q hq
                rcases List.mem_append.mp hq with hq | hq
                · exact hOK q hq
                · simp at hq
                  simp [hq]
              rw [List.foldl_cons, hstep]
              obtain ⟨out, h1, h2, h3, h4, h5, h6⟩ :=
                ih (acc ++ [link]) (seen₀ ++ [(link, true)]) hOK1
              have hlink_not : link ∉ out := by
                intro hmem
                have hn := h3 link hmem
                rw [lookupSeen_append_self seen₀ link true hl] at hn
                exact Option.noConfusion hn
              refine ⟨link :: out, ?_, ?_, ?_, ?_, h5, ?_⟩
              · rw [h1]
                simp
              · exact List.nodup_cons.mpr ⟨hlink_not, h2⟩
              · intro s hs
                rcases List.mem_cons.mp hs with hs | hs
                · rw [hs]
                  exact hl
                · exact ((lookupSeen_append_none seen₀ link true s).mp
                    (h3 s hs)).1
              · intro s
                rw [h4 s, lookupSeen_append_none]
                constructor
                · rintro ⟨⟨hn, hne⟩, hno⟩
                  refine ⟨hn, ?_⟩
                  rw [List.mem_cons, not_or]
                  exact ⟨fun hh => hne hh.symm, hno⟩
                · rintro ⟨hn, hno⟩
                  rw [List.mem_cons, not_or] at hno
                  exact ⟨⟨hn, fun hh => hno.1 hh.symm⟩, hno.2⟩
              · simp only [List.filterMap_cons, hr]
                exact h6.cons₂ link

theorem extractLinks_spec (p : GoqueryParser)
    (resolve : String → String → Option String) (base : String)
    (els : List Element) (hOK : ∀ q ∈ p.seen, q.2 = true) :
    ∃ links p1, p.extractLinks resolve base els = (links, p1) ∧
      p1.excludedExts = p.excludedExts ∧
      links.Nodup ∧
      (∀ s ∈ links, lookupSeen p.seen s = none) ∧
      (∀ s, lookupSeen p1.seen s = none ↔
        (lookupSeen p.seen s = none ∧ s ∉ links)) ∧
      (∀ q ∈ p1.seen, q.2 = true) ∧
      List.Sublist links (resolvedCandidates p.excludedExts resolve base els) := by
  obtain ⟨out, h1, h2, h3, h4, h5, h6⟩ := extract_fold_spec resolve base
    ((els.filter fun e => e.tag == "a" || e.tag == "link").filter
      (elementQualifies p.excludedExts)) [] p.seen hOK
  rw [List.nil_append] at h1
  refine ⟨out,
    { p with seen := (((els.filter fun e => e.tag == "a" || e.tag == "link").filter
        (elementQualifies p.excludedExts)).foldl
        (extractStep resolve base) ([], p.seen)).2 },
    ?_, rfl, h2, h3, h4, h5, ?_⟩
  · simp only [GoqueryParser.extractLinks]
    rw [h1]
  · simpa [resolvedCandidates] using h6

theorem runParses_spec (resolve : String → String → Option String)
    (calls : List (String × Option (List Element))) (p : GoqueryParser)
    (hOK : ∀ q ∈ p.seen, q.2 = true) :
    ((runParses p resolve calls).1.flatten).Nodup ∧
    (∀ s ∈ (runParses p resolve calls).1.flatten, lookupSeen p.seen s = none) ∧
    (∀ s, lookupSeen (runParses p resolve calls).2.seen s = none ↔
      (lookupSeen p.seen s = none ∧ s ∉ (runParses p resolve calls).1.flatten)) ∧
    (∀ q ∈ (runParses p resolve calls).2.seen, q.2 = true) ∧
    List.Forall₂ (fun (call : String × Option (List Element)) res =>
        ∀ els, call.2 = some els →
          List.Sublist res (resolvedCandidates p.excludedExts resolve call.1 els))
      calls (runParses p resolve calls).1 := by
  induction calls generalizing p with
  | nil =>
      refine ⟨by simp [runParses], by simp [runParses], ?_, hOK,
        by simp [runParses]⟩
      intro s
      simp [runParses]
  | cons call rest ih =>
      obtain ⟨base, doc⟩ := call
      cases doc with
      | none =>
          obtain ⟨ih1, ih2, ih3, ih4, ih5⟩ := ih p hOK
          have hre : runParses p resolve ((base, none) :: rest) =
              (([] : List String) :: (runParses p resolve rest).1,
               (runParses p resolve rest).2) := rfl
          rw [hre]
          refine ⟨by simpa using ih1, ?_, ?_, ih4, ?_⟩
          · intro s hs
            exact ih2 s (by simpa using hs)
          · intro s
            simpa using ih3 s
          · refine List.Forall₂.cons ?_ ih5
            intro els hh
            exact absurd hh (by simp)
      | some els =>
          obtain ⟨links, p1, hEq, hExcl, h2, h3, h4, h5, h6⟩ :=
            extractLinks_spec p resolve base els hOK
          obtain ⟨ih1, ih2, ih3, ih4, ih5⟩ := ih p1 h5
          have hre : runParses p resolve ((base, some els) :: rest) =
              (links :: (runParses p1 resolve rest).1,
               (runParses p1 resolve rest).2) := by
            simp [runParses, GoqueryParser.Parse, hEq]
          rw [hre]
          refine ⟨?_, ?_, ?_, ih4, ?_⟩
          · simp only [List.flatten_cons]
            rw [List.nodup_append]
            refine ⟨h2, ih1, ?_⟩
            intro s hs1 hs2
            have hn := ih2 s hs2
            rw [h4 s] at hn
            exact hn.2 hs1
          · intro s hs
            simp only [List.flatten_cons, List.mem_append] at hs
            rcases hs with hs | hs
            · exact h3 s hs
            · exact ((h4 s).mp (ih2 s hs)).1
          · intro s
            simp only [List.flatten_cons, List.mem_append]
            rw [ih3 s, h4 s]
            constructor
            · rintro ⟨⟨hn, hns⟩, hnj⟩
              exact ⟨hn, fun hc => hc.elim hns hnj⟩
            · rintro ⟨hn, hno⟩
              exact ⟨⟨hn, fun h => hno (Or.inl h)⟩, fun h => hno (Or.inr h)⟩
          · refine List.Forall₂.cons ?_ ?_
            · intro els2 hh
              have hh2 : els = els2 := by injection hh
              subst hh2
              exact h6
            · rw [hExcl] at ih5
              exact ih5

/-- C7: for a `GoqueryParser` instance (fresh seen map, any configured
excluded-extension set) and any sequence of `Parse` calls on it, no
absolute URL string appears twice across the concatenation of all returned
link lists — the instance-scoped seen map deduplicates within and across
calls — and each returned list is a sublist (hence in document order) of
the resolved URLs of that call's qualifying elements, i.e. each URL is
emitted at its first occurrence only. -/
theorem C7_extractor_dedup (excl : List String)
    (resolve : String → String → Option String)
    (calls : List (String × Option (List Element))) :
    ((runParses ⟨excl, []⟩ resolve calls).1.flatten).Nodup ∧
    List.Forall₂ (fun (call : String × Option (List Element)) res =>
        ∀ els, call.2 = some els →
          List.Sublist res (resolvedCandidates excl resolve call.1 els))
      calls (runParses ⟨excl, []⟩ resolve calls).1 := by
  obtain ⟨h1, h2, h3, h4, h5⟩ :=
    runParses_spec resolve calls ⟨excl, []⟩ (by simp)
  exact ⟨h1, h5⟩

end Webcrawler
